import Mathlib

/-!
Verification development for the WarpTPS thin-plate-spline (TPS) warping
library.  The repository snapshot ships only the cross-platform type header
(src/WarpTpsLib/framework.h) together with build scripts; the numerical core
(landmark sets, the TPS solver, the evaluator and the image warper) is
therefore modelled from the specification, faithfully following its data
model (section 3), solver (section 4.2), evaluator (section 4.3) and warper
(section 4.4).  Real arithmetic stands in for IEEE floating point, so the
tolerance clauses of the specification become exact equalities.
-/

namespace WarpTPS

/-- Modelled from the spec: a Point2D is two coordinates (x, y); the
floating-point coordinates are modelled by real numbers. -/
@[ext]
structure Point2D where
  x : ℝ
  y : ℝ

/-- Euclidean distance between two points, used as the radius argument of the
TPS radial basis function. -/
noncomputable def pointDist (p q : Point2D) : ℝ :=
  Real.sqrt ((p.x - q.x) ^ 2 + (p.y - q.y) ^ 2)

/-- Modelled from the spec: the TPS radial basis function
U(r) = r ^ 2 * log r for r different from 0, and U(0) = 0. -/
noncomputable def U (r : ℝ) : ℝ :=
  if r = 0 then 0 else r ^ 2 * Real.log r

/-- Modelled from the spec: a landmark pair (source point, destination
point). -/
structure LandmarkPair where
  src : Point2D
  dst : Point2D

/-- Modelled from the spec: a LandmarkSet is an ordered sequence of
LandmarkPair; it is the sole input of the model fit. -/
structure LandmarkSet where
  count : ℕ
  pairs : Fin count → LandmarkPair

/-- Reordering of the pairs of a landmark set along a permutation of its
index range. -/
def LandmarkSet.permute (s : LandmarkSet) (e : Equiv.Perm (Fin s.count)) :
    LandmarkSet :=
  ⟨s.count, fun i => s.pairs (e i)⟩

/-- Modelled from the spec: the error taxonomy of the solve call (section 7).
Fewer than 3 pairs raise InsufficientLandmarksError; a singular assembled
system raises SingularSystemError. -/
inductive TPSError where
  | insufficientLandmarksError : TPSError
  | singularSystemError : TPSError
deriving DecidableEq

/-- Modelled from the spec: the immutable result of solving, built jointly
for the two output coordinates: the source-side control points, one radial
weight per control point and per output coordinate, and 3 affine
coefficients per output coordinate. -/
structure TPSModel (n : ℕ) where
  controlPoints : Fin n → Point2D
  weightsX : Fin n → ℝ
  weightsY : Fin n → ℝ
  affineX : Fin 3 → ℝ
  affineY : Fin 3 → ℝ

/-- Modelled from the spec: the kernel matrix K with
K i j = U (dist (P i) (P j)). -/
noncomputable def kernelMatrix {n : ℕ} (P : Fin n → Point2D) :
    Matrix (Fin n) (Fin n) ℝ :=
  Matrix.of fun i j => U (pointDist (P i) (P j))

/-- Modelled from the spec: the design matrix A whose row i is
[1, (P i).x, (P i).y]. -/
noncomputable def designMatrix {n : ℕ} (P : Fin n → Point2D) :
    Matrix (Fin n) (Fin 3) ℝ :=
  Matrix.of fun i k => ![1, (P i).x, (P i).y] k

/-- Modelled from the spec: the augmented (n+3) x (n+3) system matrix
[[K + lam I, A], [A transposed, 0]] of section 4.2, with lam the
regularization parameter. -/
noncomputable def tpsMatrix {n : ℕ} (P : Fin n → Point2D) (lam : ℝ) :
    Matrix (Fin n ⊕ Fin 3) (Fin n ⊕ Fin 3) ℝ :=
  Matrix.fromBlocks (kernelMatrix P + lam • (1 : Matrix (Fin n) (Fin n) ℝ))
    (designMatrix P) (designMatrix P).transpose 0

/-- Source points of a landmark set, indexed by position. -/
def srcOf (s : LandmarkSet) : Fin s.count → Point2D :=
  fun i => (s.pairs i).src

/-- x components of the destination points of a landmark set. -/
def dstX (s : LandmarkSet) : Fin s.count → ℝ :=
  fun i => (s.pairs i).dst.x

/-- y components of the destination points of a landmark set. -/
def dstY (s : LandmarkSet) : Fin s.count → ℝ :=
  fun i => (s.pairs i).dst.y

/-- Modelled from the spec: the direct solve of the augmented system for one
right-hand side [V; 0], via the inverse of the system matrix. -/
noncomputable def solveVec (s : LandmarkSet) (lam : ℝ) (V : Fin s.count → ℝ) :
    (Fin s.count ⊕ Fin 3) → ℝ :=
  (tpsMatrix (srcOf s) lam)⁻¹.mulVec (Sum.elim V 0)

/-- Modelled from the spec: the model assembled from the two per-coordinate
solves, sharing the same system matrix. -/
noncomputable def mkModel (s : LandmarkSet) (lam : ℝ) : TPSModel s.count where
  controlPoints := srcOf s
  weightsX := fun i => solveVec s lam (dstX s) (Sum.inl i)
  weightsY := fun i => solveVec s lam (dstY s) (Sum.inl i)
  affineX := fun k => solveVec s lam (dstX s) (Sum.inr k)
  affineY := fun k => solveVec s lam (dstY s) (Sum.inr k)

section
open Classical

/-- Modelled from the spec (section 4.2): solve(landmarkSet, regularization)
fails with InsufficientLandmarksError when fewer than 3 pairs are present,
fails with SingularSystemError when the assembled system is singular (in
exact arithmetic: determinant zero), and otherwise returns the model
obtained by the direct solve.  No model is produced on either failure. -/
noncomputable def solve (s : LandmarkSet) (lam : ℝ) :
    Except TPSError (TPSModel s.count) :=
  if s.count < 3 then Except.error TPSError.insufficientLandmarksError
  else if (tpsMatrix (srcOf s) lam).det = 0 then
    Except.error TPSError.singularSystemError
  else Except.ok (mkModel s lam)

end

/-- Modelled from the spec (section 4.3): the fitted transform,
f(point) = C 0 + C 1 * point.x + C 2 * point.y
+ sum over i of weights i * U (dist (controlPoints i) point),
computed per output coordinate. -/
noncomputable def fTPS {n : ℕ} (m : TPSModel n) (p : Point2D) : Point2D :=
  ⟨m.affineX 0 + m.affineX 1 * p.x + m.affineX 2 * p.y +
      ∑ i, m.weightsX i * U (pointDist (m.controlPoints i) p),
    m.affineY 0 + m.affineY 1 * p.x + m.affineY 2 * p.y +
      ∑ i, m.weightsY i * U (pointDist (m.controlPoints i) p)⟩

/-- Modelled from the spec (section 4.3): partial-strength blending,
output = point + percent * (f(point) - point); percent is not clamped. -/
noncomputable def evaluate {n : ℕ} (m : TPSModel n) (p : Point2D)
    (percent : ℝ) : Point2D :=
  ⟨p.x + percent * ((fTPS m p).x - p.x),
    p.y + percent * ((fTPS m p).y - p.y)⟩

/-- Model of the BYTE sample type of src/WarpTpsLib/framework.h: in builds
without MFC it is a typedef for unsigned char, an exact unsigned 8-bit
integer in the range 0 to 255. -/
abbrev BYTE := Fin 256

/-- Modelled from the spec (section 6): a dense image buffer with explicit
width, height and channel count, holding one BYTE sample per pixel and
channel. -/
structure Image where
  width : ℕ
  height : ℕ
  channels : ℕ
  pixel : Fin height → Fin width → Fin channels → BYTE

/-- Sample of an image at integer coordinates, clamped to the image bounds,
as a real number; 0 on a degenerate (empty) image. -/
noncomputable def getPixelClamped (img : Image) (xi yi : ℤ)
    (c : Fin img.channels) : ℝ :=
  if hw : 0 < img.width then
    if hh : 0 < img.height then
      ((img.pixel ⟨min (max yi 0).toNat (img.height - 1), by omega⟩
          ⟨min (max xi 0).toNat (img.width - 1), by omega⟩ c : Fin 256) : ℕ)
    else 0
  else 0

/-- Modelled from the spec (section 4.4): bilinear interpolation of the four
integer-coordinate neighbours of a real sample position, identical weights
across channels, accumulated in a wide numeric range (here the reals). -/
noncomputable def bilinearSample (img : Image) (c : Fin img.channels)
    (sx sy : ℝ) : ℝ :=
  (1 - (sx - ⌊sx⌋)) * (1 - (sy - ⌊sy⌋)) * getPixelClamped img ⌊sx⌋ ⌊sy⌋ c +
    (sx - ⌊sx⌋) * (1 - (sy - ⌊sy⌋)) * getPixelClamped img (⌊sx⌋ + 1) ⌊sy⌋ c +
    (1 - (sx - ⌊sx⌋)) * (sy - ⌊sy⌋) * getPixelClamped img ⌊sx⌋ (⌊sy⌋ + 1) c +
    (sx - ⌊sx⌋) * (sy - ⌊sy⌋) * getPixelClamped img (⌊sx⌋ + 1) (⌊sy⌋ + 1) c

/-- Rounding of an interpolated real sample back into the BYTE range
0 to 255 (round half up, clamped). -/
noncomputable def roundByte (v : ℝ) : BYTE :=
  ⟨min (max ⌊v + 1 / 2⌋ 0).toNat 255, by omega⟩

/-- Modelled from the spec (section 4.4): the enumerated fill policies for
out-of-bounds samples; the default is constant black (zero). -/
inductive FillPolicy where
  | constant (b : BYTE) : FillPolicy
  | transparent : FillPolicy
  | edgeClamp : FillPolicy

/-- Default fill policy: constant zero (black). -/
def FillPolicy.default : FillPolicy := FillPolicy.constant ⟨0, by omega⟩

/-- Value written to a destination sample whose mapped source position lies
outside the source bounds, according to the fill policy. -/
noncomputable def fillValue (fp : FillPolicy) (img : Image)
    (c : Fin img.channels) (sx sy : ℝ) : BYTE :=
  match fp with
  | FillPolicy.constant b => b
  | FillPolicy.transparent => ⟨0, by omega⟩
  | FillPolicy.edgeClamp => roundByte (getPixelClamped img ⌊sx⌋ ⌊sy⌋ c)

/-- A real sample position lies within the source image bounds. -/
def inSourceBounds (img : Image) (sx sy : ℝ) : Prop :=
  0 ≤ sx ∧ sx ≤ (img.width : ℝ) - 1 ∧ 0 ≤ sy ∧ sy ≤ (img.height : ℝ) - 1

section
open Classical

/-- Modelled from the spec (section 4.4): pull-based resampling.  Every
destination pixel (x, y) is mapped through the (inverse) model with the given
blend factor; in-bounds positions are sampled bilinearly and rounded back to
BYTE, out-of-bounds positions are resolved by the fill policy.  The
destination image has the same width, height and channel count as the
source, and no per-pixel case can fail. -/
noncomputable def warp {n : ℕ} (img : Image) (m : TPSModel n) (percent : ℝ)
    (fp : FillPolicy) : Image where
  width := img.width
  height := img.height
  channels := img.channels
  pixel := fun y x c =>
    if inSourceBounds img (evaluate m ⟨x, y⟩ percent).x
        (evaluate m ⟨x, y⟩ percent).y then
      roundByte (bilinearSample img c (evaluate m ⟨x, y⟩ percent).x
        (evaluate m ⟨x, y⟩ percent).y)
    else
      fillValue fp img c (evaluate m ⟨x, y⟩ percent).x
        (evaluate m ⟨x, y⟩ percent).y

end

/-! Helper lemmas about the assembled linear system. -/

theorem pointDist_symm (p q : Point2D) : pointDist p q = pointDist q p := by
  unfold pointDist
  ring_nf

theorem sum_elim_restrict {n : ℕ} (v : Fin n ⊕ Fin 3 → ℝ) :
    Sum.elim (fun i => v (Sum.inl i)) (fun k => v (Sum.inr k)) = v := by
  funext t
  cases t <;> rfl

theorem mulVec_inv_cancel {I : Type} [Fintype I] [DecidableEq I]
    (M : Matrix I I ℝ) (h : M.det ≠ 0) (b : I → ℝ) :
    M.mulVec (M⁻¹.mulVec b) = b := by
  rw [Matrix.mulVec_mulVec, Matrix.mul_nonsing_inv M (isUnit_iff_ne_zero.mpr h),
    Matrix.one_mulVec]

theorem mulVec_inj {I : Type} [Fintype I] [DecidableEq I]
    (M : Matrix I I ℝ) (h : M.det ≠ 0) {a b : I → ℝ}
    (hab : M.mulVec a = M.mulVec b) : a = b := by
  have ha : M⁻¹.mulVec (M.mulVec a) = M⁻¹.mulVec (M.mulVec b) := by rw [hab]
  rwa [Matrix.mulVec_mulVec, Matrix.mulVec_mulVec,
    Matrix.nonsing_inv_mul M (isUnit_iff_ne_zero.mpr h), Matrix.one_mulVec,
    Matrix.one_mulVec] at ha

theorem tpsMatrix_mulVec_inl {n : ℕ} (P : Fin n → Point2D) (lam : ℝ)
    (w : Fin n → ℝ) (c : Fin 3 → ℝ) (i : Fin n) :
    (tpsMatrix P lam).mulVec (Sum.elim w c) (Sum.inl i) =
      (∑ j, U (pointDist (P i) (P j)) * w j) + lam * w i +
        (c 0 + (P i).x * c 1 + (P i).y * c 2) := by
  simp only [tpsMatrix]
  rw [Matrix.fromBlocks_mulVec]
  simp only [Sum.elim_comp_inl, Sum.elim_comp_inr, Sum.elim_inl,
    Matrix.add_mulVec, Matrix.smul_mulVec_assoc, Matrix.one_mulVec,
    Pi.add_apply, Pi.smul_apply, smul_eq_mul]
  simp only [Matrix.mulVec, Matrix.dotProduct, kernelMatrix, designMatrix,
    Matrix.of_apply, Fin.sum_univ_three, Matrix.cons_val_zero,
    Matrix.cons_val_one, Matrix.head_cons, Matrix.cons_val_two,
    Matrix.tail_cons]
  ring

theorem tpsMatrix_mulVec_inr0 {n : ℕ} (P : Fin n → Point2D) (lam : ℝ)
    (w : Fin n → ℝ) (c : Fin 3 → ℝ) :
    (tpsMatrix P lam).mulVec (Sum.elim w c) (Sum.inr 0) = ∑ j, w j := by
  simp only [tpsMatrix]
  rw [Matrix.fromBlocks_mulVec]
  simp only [Sum.elim_comp_inl, Sum.elim_comp_inr, Sum.elim_inr,
    Matrix.zero_mulVec, Pi.add_apply, Pi.zero_apply, add_zero,
    Matrix.mulVec, Matrix.dotProduct, Matrix.transpose_apply, designMatrix,
    Matrix.of_apply, Matrix.cons_val_zero, one_mul]

theorem tpsMatrix_mulVec_inr1 {n : ℕ} (P : Fin n → Point2D) (lam : ℝ)
    (w : Fin n → ℝ) (c : Fin 3 → ℝ) :
    (tpsMatrix P lam).mulVec (Sum.elim w c) (Sum.inr 1) =
      ∑ j, (P j).x * w j := by
  simp only [tpsMatrix]
  rw [Matrix.fromBlocks_mulVec]
  simp only [Sum.elim_comp_inl, Sum.elim_comp_inr, Sum.elim_inr,
    Matrix.zero_mulVec, Pi.add_apply, Pi.zero_apply, add_zero,
    Matrix.mulVec, Matrix.dotProduct, Matrix.transpose_apply, designMatrix,
    Matrix.of_apply, Matrix.cons_val_one, Matrix.head_cons]

theorem tpsMatrix_mulVec_inr2 {n : ℕ} (P : Fin n → Point2D) (lam : ℝ)
    (w : Fin n → ℝ) (c : Fin 3 → ℝ) :
    (tpsMatrix P lam).mulVec (Sum.elim w c) (Sum.inr 2) =
      ∑ j, (P j).y * w j := by
  simp only [tpsMatrix]
  rw [Matrix.fromBlocks_mulVec]
  simp only [Sum.elim_comp_inl, Sum.elim_comp_inr, Sum.elim_inr,
    Matrix.zero_mulVec, Pi.add_apply, Pi.zero_apply, add_zero,
    Matrix.mulVec, Matrix.dotProduct, Matrix.transpose_apply, designMatrix,
    Matrix.of_apply, Matrix.cons_val_two, Matrix.tail_cons, Matrix.head_cons]

theorem tpsMatrix_mulVec_inr {n : ℕ} (P : Fin n → Point2D) (lam : ℝ)
    (w : Fin n → ℝ) (c : Fin 3 → ℝ) (k : Fin 3) :
    (tpsMatrix P lam).mulVec (Sum.elim w c) (Sum.inr k) =
      ∑ j, ![1, (P j).x, (P j).y] k * w j := by
  simp only [tpsMatrix]
  rw [Matrix.fromBlocks_mulVec]
  simp only [Sum.elim_comp_inl, Sum.elim_comp_inr, Sum.elim_inr,
    Matrix.zero_mulVec, Pi.add_apply, Pi.zero_apply, add_zero,
    Matrix.mulVec, Matrix.dotProduct, Matrix.transpose_apply, designMatrix,
    Matrix.of_apply]

theorem solve_eq_ok_iff {s : LandmarkSet} {lam : ℝ} {m : TPSModel s.count} :
    solve s lam = Except.ok m ↔
      3 ≤ s.count ∧ (tpsMatrix (srcOf s) lam).det ≠ 0 ∧ m = mkModel s lam := by
  unfold solve
  split_ifs with h1 h2
  · constructor
    · intro h
      cases h
    · rintro ⟨h3, -, -⟩
      omega
  · constructor
    · intro h
      cases h
    · rintro ⟨-, hd, -⟩
      exact absurd h2 hd
  · constructor
    · intro h
      refine ⟨by omega, h2, ?_⟩
      cases h
      rfl
    · rintro ⟨-, -, hm⟩
      rw [hm]

theorem mkModel_weights_elim_x (s : LandmarkSet) (lam : ℝ) :
    Sum.elim (mkModel s lam).weightsX (mkModel s lam).affineX =
      solveVec s lam (dstX s) := by
  funext t
  cases t <;> rfl

theorem mkModel_weights_elim_y (s : LandmarkSet) (lam : ℝ) :
    Sum.elim (mkModel s lam).weightsY (mkModel s lam).affineY =
      solveVec s lam (dstY s) := by
  funext t
  cases t <;> rfl

theorem mkModel_system_x (s : LandmarkSet) (lam : ℝ)
    (h : (tpsMatrix (srcOf s) lam).det ≠ 0) :
    (tpsMatrix (srcOf s) lam).mulVec
        (Sum.elim (mkModel s lam).weightsX (mkModel s lam).affineX) =
      Sum.elim (dstX s) 0 := by
  rw [mkModel_weights_elim_x]
  exact mulVec_inv_cancel _ h _

theorem mkModel_system_y (s : LandmarkSet) (lam : ℝ)
    (h : (tpsMatrix (srcOf s) lam).det ≠ 0) :
    (tpsMatrix (srcOf s) lam).mulVec
        (Sum.elim (mkModel s lam).weightsY (mkModel s lam).affineY) =
      Sum.elim (dstY s) 0 := by
  rw [mkModel_weights_elim_y]
  exact mulVec_inv_cancel _ h _

/-! Basic facts about the evaluator. -/

theorem fTPS_x {n : ℕ} (m : TPSModel n) (p : Point2D) :
    (fTPS m p).x = m.affineX 0 + m.affineX 1 * p.x + m.affineX 2 * p.y +
      ∑ i, m.weightsX i * U (pointDist (m.controlPoints i) p) :=
  rfl

theorem fTPS_y {n : ℕ} (m : TPSModel n) (p : Point2D) :
    (fTPS m p).y = m.affineY 0 + m.affineY 1 * p.x + m.affineY 2 * p.y +
      ∑ i, m.weightsY i * U (pointDist (m.controlPoints i) p) :=
  rfl

theorem evaluate_zero {n : ℕ} (m : TPSModel n) (p : Point2D) :
    evaluate m p 0 = p := by
  unfold evaluate
  ext <;> ring

theorem evaluate_one {n : ℕ} (m : TPSModel n) (p : Point2D) :
    evaluate m p 1 = fTPS m p := by
  unfold evaluate
  ext <;> ring

/-! Exact interpolation of the landmarks by the fitted transform when the
regularization is zero. -/

theorem mkModel_interpolates (s : LandmarkSet)
    (hdet : (tpsMatrix (srcOf s) 0).det ≠ 0) (i : Fin s.count) :
    fTPS (mkModel s 0) (srcOf s i) = (s.pairs i).dst := by
  have hsx : ∑ j, (mkModel s 0).weightsX j *
      U (pointDist ((mkModel s 0).controlPoints j) (srcOf s i)) =
      ∑ j, U (pointDist (srcOf s i) (srcOf s j)) * (mkModel s 0).weightsX j :=
    Finset.sum_congr rfl fun j _ => by
      rw [mul_comm, pointDist_symm]
      rfl
  have hsy : ∑ j, (mkModel s 0).weightsY j *
      U (pointDist ((mkModel s 0).controlPoints j) (srcOf s i)) =
      ∑ j, U (pointDist (srcOf s i) (srcOf s j)) * (mkModel s 0).weightsY j :=
    Finset.sum_congr rfl fun j _ => by
      rw [mul_comm, pointDist_symm]
      rfl
  have hx := congrFun (mkModel_system_x s 0 hdet) (Sum.inl i)
  rw [tpsMatrix_mulVec_inl] at hx
  simp only [Sum.elim_inl] at hx
  have hy := congrFun (mkModel_system_y s 0 hdet) (Sum.inl i)
  rw [tpsMatrix_mulVec_inl] at hy
  simp only [Sum.elim_inl] at hy
  ext
  · rw [fTPS_x, hsx]
    have hd : dstX s i = (s.pairs i).dst.x := rfl
    rw [hd] at hx
    linear_combination hx
  · rw [fTPS_y, hsy]
    have hd : dstY s i = (s.pairs i).dst.y := rfl
    rw [hd] at hy
    linear_combination hy

/-! For identity landmark sets the fitted transform is the identity at every
blend factor: the identity coefficients solve the system, and the solution
is unique because the system matrix is invertible. -/

theorem identity_solution_x (s : LandmarkSet) (lam : ℝ)
    (hid : ∀ i, (s.pairs i).src = (s.pairs i).dst) :
    (tpsMatrix (srcOf s) lam).mulVec
        (Sum.elim (0 : Fin s.count → ℝ) ![0, 1, 0]) =
      Sum.elim (dstX s) 0 := by
  funext t
  cases t with
  | inl i =>
    rw [tpsMatrix_mulVec_inl]
    simp only [Pi.zero_apply, mul_zero, Finset.sum_const_zero, zero_add,
      add_zero, Matrix.cons_val_zero, Matrix.cons_val_one, Matrix.head_cons,
      Matrix.cons_val_two, Matrix.tail_cons, Sum.elim_inl, mul_one, mul_zero]
    have : dstX s i = (s.pairs i).src.x := by
      rw [hid i]
      rfl
    rw [this]
    rfl
  | inr k =>
    rw [tpsMatrix_mulVec_inr]
    simp

theorem identity_solution_y (s : LandmarkSet) (lam : ℝ)
    (hid : ∀ i, (s.pairs i).src = (s.pairs i).dst) :
    (tpsMatrix (srcOf s) lam).mulVec
        (Sum.elim (0 : Fin s.count → ℝ) ![0, 0, 1]) =
      Sum.elim (dstY s) 0 := by
  funext t
  cases t with
  | inl i =>
    rw [tpsMatrix_mulVec_inl]
    simp only [Pi.zero_apply, mul_zero, Finset.sum_const_zero, zero_add,
      add_zero, Matrix.cons_val_zero, Matrix.cons_val_one, Matrix.head_cons,
      Matrix.cons_val_two, Matrix.tail_cons, Sum.elim_inl, mul_one, mul_zero]
    have : dstY s i = (s.pairs i).src.y := by
      rw [hid i]
      rfl
    rw [this]
    rfl
  | inr k =>
    rw [tpsMatrix_mulVec_inr]
    simp

theorem mkModel_identity (s : LandmarkSet) (lam : ℝ)
    (hdet : (tpsMatrix (srcOf s) lam).det ≠ 0)
    (hid : ∀ i, (s.pairs i).src = (s.pairs i).dst) (p : Point2D) (t : ℝ) :
    evaluate (mkModel s lam) p t = p := by
  have hx : Sum.elim (mkModel s lam).weightsX (mkModel s lam).affineX =
      Sum.elim (0 : Fin s.count → ℝ) ![0, 1, 0] :=
    mulVec_inj _ hdet
      (by rw [mkModel_system_x s lam hdet, identity_solution_x s lam hid])
  have hy : Sum.elim (mkModel s lam).weightsY (mkModel s lam).affineY =
      Sum.elim (0 : Fin s.count → ℝ) ![0, 0, 1] :=
    mulVec_inj _ hdet
      (by rw [mkModel_system_y s lam hdet, identity_solution_y s lam hid])
  have hwx : ∀ i, (mkModel s lam).weightsX i = 0 := fun i => by
    have := congrFun hx (Sum.inl i)
    simpa using this
  have hwy : ∀ i, (mkModel s lam).weightsY i = 0 := fun i => by
    have := congrFun hy (Sum.inl i)
    simpa using this
  have hax : ∀ k, (mkModel s lam).affineX k = ![0, 1, 0] k := fun k => by
    have := congrFun hx (Sum.inr k)
    simpa using this
  have hay : ∀ k, (mkModel s lam).affineY k = ![0, 0, 1] k := fun k => by
    have := congrFun hy (Sum.inr k)
    simpa using this
  have hfx : (fTPS (mkModel s lam) p).x = p.x := by
    rw [fTPS_x, hax 0, hax 1, hax 2]
    simp [hwx]
  have hfy : (fTPS (mkModel s lam) p).y = p.y := by
    rw [fTPS_y, hay 0, hay 1, hay 2]
    simp [hwy]
  unfold evaluate
  rw [hfx, hfy]
  ext <;> ring

/-! Permutation invariance: reordering the landmark pairs permutes the
weight vector and leaves the affine part and the evaluated transform
unchanged. -/

theorem permute_system_x (s : LandmarkSet) (e : Equiv.Perm (Fin s.count))
    (lam : ℝ) (w : Fin s.count → ℝ) (c : Fin 3 → ℝ)
    (h : (tpsMatrix (srcOf s) lam).mulVec (Sum.elim w c) =
      Sum.elim (dstX s) 0) :
    (tpsMatrix (srcOf (s.permute e)) lam).mulVec
        (Sum.elim (fun i => w (e i)) c) = Sum.elim (dstX (s.permute e)) 0 := by
  funext t
  cases t with
  | inl i =>
    have h2 := congrFun h (Sum.inl (e i))
    simp only [tpsMatrix_mulVec_inl, Sum.elim_inl] at h2 ⊢
    simp only [srcOf, dstX, LandmarkSet.permute] at h2 ⊢
    have hs : (∑ j, U (pointDist (s.pairs (e i)).src (s.pairs (e j)).src) *
        w (e j)) =
        ∑ j, U (pointDist (s.pairs (e i)).src (s.pairs j).src) * w j :=
      Equiv.sum_comp e
        (fun j => U (pointDist (s.pairs (e i)).src (s.pairs j).src) * w j)
    rw [hs]
    exact h2
  | inr k =>
    have h2 := congrFun h (Sum.inr k)
    simp only [tpsMatrix_mulVec_inr, Sum.elim_inr] at h2 ⊢
    simp only [srcOf, LandmarkSet.permute] at h2 ⊢
    have hs : (∑ j, ![1, (s.pairs (e j)).src.x, (s.pairs (e j)).src.y] k *
        w (e j)) =
        ∑ j, ![1, (s.pairs j).src.x, (s.pairs j).src.y] k * w j :=
      Equiv.sum_comp e
        (fun j => ![1, (s.pairs j).src.x, (s.pairs j).src.y] k * w j)
    rw [hs]
    exact h2

theorem permute_system_y (s : LandmarkSet) (e : Equiv.Perm (Fin s.count))
    (lam : ℝ) (w : Fin s.count → ℝ) (c : Fin 3 → ℝ)
    (h : (tpsMatrix (srcOf s) lam).mulVec (Sum.elim w c) =
      Sum.elim (dstY s) 0) :
    (tpsMatrix (srcOf (s.permute e)) lam).mulVec
        (Sum.elim (fun i => w (e i)) c) = Sum.elim (dstY (s.permute e)) 0 := by
  funext t
  cases t with
  | inl i =>
    have h2 := congrFun h (Sum.inl (e i))
    simp only [tpsMatrix_mulVec_inl, Sum.elim_inl] at h2 ⊢
    simp only [srcOf, dstY, LandmarkSet.permute] at h2 ⊢
    have hs : (∑ j, U (pointDist (s.pairs (e i)).src (s.pairs (e j)).src) *
        w (e j)) =
        ∑ j, U (pointDist (s.pairs (e i)).src (s.pairs j).src) * w j :=
      Equiv.sum_comp e
        (fun j => U (pointDist (s.pairs (e i)).src (s.pairs j).src) * w j)
    rw [hs]
    exact h2
  | inr k =>
    have h2 := congrFun h (Sum.inr k)
    simp only [tpsMatrix_mulVec_inr, Sum.elim_inr] at h2 ⊢
    simp only [srcOf, LandmarkSet.permute] at h2 ⊢
    have hs : (∑ j, ![1, (s.pairs (e j)).src.x, (s.pairs (e j)).src.y] k *
        w (e j)) =
        ∑ j, ![1, (s.pairs j).src.x, (s.pairs j).src.y] k * w j :=
      Equiv.sum_comp e
        (fun j => ![1, (s.pairs j).src.x, (s.pairs j).src.y] k * w j)
    rw [hs]
    exact h2

theorem mkModel_permute_evaluate (s : LandmarkSet)
    (e : Equiv.Perm (Fin s.count)) (lam : ℝ)
    (hdet : (tpsMatrix (srcOf s) lam).det ≠ 0)
    (hdet2 : (tpsMatrix (srcOf (s.permute e)) lam).det ≠ 0)
    (p : Point2D) (t : ℝ) :
    evaluate (mkModel (s.permute e) lam) p t = evaluate (mkModel s lam) p t := by
  have hux : Sum.elim (mkModel (s.permute e) lam).weightsX
      (mkModel (s.permute e) lam).affineX =
      Sum.elim (fun i => (mkModel s lam).weightsX (e i))
        (mkModel s lam).affineX :=
    mulVec_inj _ hdet2 (by
      rw [mkModel_system_x (s.permute e) lam hdet2]
      exact (permute_system_x s e lam _ _ (mkModel_system_x s lam hdet)).symm)
  have huy : Sum.elim (mkModel (s.permute e) lam).weightsY
      (mkModel (s.permute e) lam).affineY =
      Sum.elim (fun i => (mkModel s lam).weightsY (e i))
        (mkModel s lam).affineY :=
    mulVec_inj _ hdet2 (by
      rw [mkModel_system_y (s.permute e) lam hdet2]
      exact (permute_system_y s e lam _ _ (mkModel_system_y s lam hdet)).symm)
  have hwx : ∀ i, (mkModel (s.permute e) lam).weightsX i =
      (mkModel s lam).weightsX (e i) := fun i => by
    simpa using congrFun hux (Sum.inl i)
  have hwy : ∀ i, (mkModel (s.permute e) lam).weightsY i =
      (mkModel s lam).weightsY (e i) := fun i => by
    simpa using congrFun huy (Sum.inl i)
  have hax : ∀ k, (mkModel (s.permute e) lam).affineX k =
      (mkModel s lam).affineX k := fun k => by
    simpa using congrFun hux (Sum.inr k)
  have hay : ∀ k, (mkModel (s.permute e) lam).affineY k =
      (mkModel s lam).affineY k := fun k => by
    simpa using congrFun huy (Sum.inr k)
  have hcp : ∀ j, (mkModel (s.permute e) lam).controlPoints j =
      (mkModel s lam).controlPoints (e j) := fun j => rfl
  have hfx : (fTPS (mkModel (s.permute e) lam) p).x =
      (fTPS (mkModel s lam) p).x := by
    rw [fTPS_x, fTPS_x, hax 0, hax 1, hax 2]
    congr 1
    calc (∑ i, (mkModel (s.permute e) lam).weightsX i *
          U (pointDist ((mkModel (s.permute e) lam).controlPoints i) p))
        = ∑ i, (mkModel s lam).weightsX (e i) *
            U (pointDist ((mkModel s lam).controlPoints (e i)) p) :=
          Finset.sum_congr rfl fun i _ => by rw [hwx i, hcp i]
      _ = ∑ i, (mkModel s lam).weightsX i *
            U (pointDist ((mkModel s lam).controlPoints i) p) :=
          Equiv.sum_comp e (fun i => (mkModel s lam).weightsX i *
            U (pointDist ((mkModel s lam).controlPoints i) p))
  have hfy : (fTPS (mkModel (s.permute e) lam) p).y =
      (fTPS (mkModel s lam) p).y := by
    rw [fTPS_y, fTPS_y, hay 0, hay 1, hay 2]
    congr 1
    calc (∑ i, (mkModel (s.permute e) lam).weightsY i *
          U (pointDist ((mkModel (s.permute e) lam).controlPoints i) p))
        = ∑ i, (mkModel s lam).weightsY (e i) *
            U (pointDist ((mkModel s lam).controlPoints (e i)) p) :=
          Finset.sum_congr rfl fun i _ => by rw [hwy i, hcp i]
      _ = ∑ i, (mkModel s lam).weightsY i *
            U (pointDist ((mkModel s lam).controlPoints i) p) :=
          Equiv.sum_comp e (fun i => (mkModel s lam).weightsY i *
            U (pointDist ((mkModel s lam).controlPoints i) p))
  unfold evaluate
  rw [hfx, hfy]

/-! With exactly 3 landmarks whose design matrix is invertible, the
augmented system is nonsingular whatever the kernel entries and the
regularization are. -/

theorem tpsMatrix_det_ne_zero_of_three (P : Fin 3 → Point2D) (lam : ℝ)
    (hA : (designMatrix P).det ≠ 0) : (tpsMatrix P lam).det ≠ 0 := by
  intro h
  obtain ⟨v, hv0, hv⟩ := Matrix.exists_mulVec_eq_zero_iff.mpr h
  have hb : (tpsMatrix P lam).mulVec
      (Sum.elim (fun i => v (Sum.inl i)) (fun k => v (Sum.inr k))) = 0 := by
    rw [sum_elim_restrict]
    exact hv
  simp only [tpsMatrix] at hb
  rw [Matrix.fromBlocks_mulVec] at hb
  simp only [Sum.elim_comp_inl, Sum.elim_comp_inr, Matrix.zero_mulVec,
    add_zero] at hb
  have hdT : ((designMatrix P).transpose).det ≠ 0 := by
    rw [Matrix.det_transpose]
    exact hA
  have hw : (fun i => v (Sum.inl i)) = (0 : Fin 3 → ℝ) := by
    apply mulVec_inj _ hdT
    rw [Matrix.mulVec_zero]
    funext k
    have h2 := congrFun hb (Sum.inr k)
    simpa using h2
  have hc : (fun k => v (Sum.inr k)) = (0 : Fin 3 → ℝ) := by
    apply mulVec_inj _ hA
    rw [Matrix.mulVec_zero]
    funext i
    have h2 := congrFun hb (Sum.inl i)
    simp only [Sum.elim_inl, Pi.zero_apply, Pi.add_apply] at h2
    rw [hw, Matrix.mulVec_zero] at h2
    simpa using h2
  apply hv0
  funext t
  cases t with
  | inl i => exact congrFun hw i
  | inr k => exact congrFun hc k

theorem tpsMatrix_det_ne_zero_of_eq_three {k : ℕ} (hk : k = 3)
    (P : Fin k → Point2D) (lam : ℝ)
    (hA : (Matrix.of fun (i j : Fin 3) =>
      designMatrix P (Fin.cast hk.symm i) j).det ≠ 0) :
    (tpsMatrix P lam).det ≠ 0 := by
  subst hk
  have he : (Matrix.of fun (i j : Fin 3) =>
      designMatrix P (Fin.cast rfl i) j) = designMatrix P := by
    funext i j
    rfl
  rw [he] at hA
  exact tpsMatrix_det_ne_zero_of_three P lam hA

/-! Collinear or duplicated source points make the augmented system
singular. -/

theorem tpsMatrix_det_eq_zero_of_collinear {n : ℕ} (P : Fin n → Point2D)
    (lam a b c : ℝ) (hnz : ¬(a = 0 ∧ b = 0 ∧ c = 0))
    (hcol : ∀ i, a + b * (P i).x + c * (P i).y = 0) :
    (tpsMatrix P lam).det = 0 := by
  rw [← Matrix.exists_mulVec_eq_zero_iff]
  refine ⟨Sum.elim 0 ![a, b, c], ?_, ?_⟩
  · intro h0
    have ha := congrFun h0 (Sum.inr 0)
    have hbb := congrFun h0 (Sum.inr 1)
    have hcc := congrFun h0 (Sum.inr 2)
    simp at ha hbb hcc
    exact hnz ⟨ha, hbb, hcc⟩
  · funext t
    cases t with
    | inl i =>
      rw [tpsMatrix_mulVec_inl]
      simp only [Pi.zero_apply, mul_zero, Finset.sum_const_zero, zero_add,
        add_zero, Matrix.cons_val_zero, Matrix.cons_val_one, Matrix.head_cons,
        Matrix.cons_val_two, Matrix.tail_cons]
      linear_combination hcol i
    | inr k =>
      simp only [tpsMatrix]
      rw [Matrix.fromBlocks_mulVec]
      simp [Sum.elim_comp_inl, Sum.elim_comp_inr, Matrix.mulVec_zero,
        Matrix.zero_mulVec]

theorem tpsMatrix_det_eq_zero_of_dup {n : ℕ} (P : Fin n → Point2D)
    (i j : Fin n) (hij : i ≠ j) (hP : P i = P j) :
    (tpsMatrix P 0).det = 0 := by
  rw [← Matrix.exists_mulVec_eq_zero_iff]
  refine ⟨Sum.elim (Pi.single i 1 - Pi.single j 1) 0, ?_, ?_⟩
  · intro h0
    have h1 := congrFun h0 (Sum.inl i)
    simp [Pi.single_eq_same, Pi.single_eq_of_ne hij] at h1
  · funext t
    cases t with
    | inl k =>
      rw [tpsMatrix_mulVec_inl]
      simp only [Pi.zero_apply, zero_mul, mul_zero, add_zero, Pi.sub_apply,
        Pi.single_apply, mul_ite, mul_one, mul_sub, Finset.sum_sub_distrib,
        Finset.sum_ite_eq', Finset.mem_univ, if_true]
      rw [hP]
      simp
    | inr k =>
      simp only [tpsMatrix]
      rw [Matrix.fromBlocks_mulVec]
      simp only [Sum.elim_comp_inl, Sum.elim_comp_inr, Sum.elim_inr,
        Matrix.mulVec_zero, Matrix.zero_mulVec, add_zero, Pi.zero_apply]
      rw [Matrix.mulVec_sub]
      simp only [Matrix.mulVec_single, Pi.sub_apply, mul_one,
        Matrix.transpose_apply, designMatrix, Matrix.of_apply]
      rw [hP]
      ring

/-! Image-level lemmas. -/

theorem floor_half : ⌊(1 / 2 : ℝ)⌋ = 0 := by
  rw [Int.floor_eq_iff]
  norm_num

theorem roundByte_byte (b : BYTE) : roundByte ((b : ℕ) : ℝ) = b := by
  have h1 : (((b : ℕ) : ℝ)) + 1 / 2 = (((b : ℕ) : ℤ) : ℝ) + (1 / 2 : ℝ) := by
    push_cast
    ring
  have h2 : ⌊((b : ℕ) : ℝ) + 1 / 2⌋ = ((b : ℕ) : ℤ) := by
    rw [h1, Int.floor_int_add, floor_half, add_zero]
  unfold roundByte
  apply Fin.ext
  show (min (max ⌊((b : ℕ) : ℝ) + 1 / 2⌋ 0).toNat 255) = (b : ℕ)
  rw [h2]
  have hb := b.isLt
  omega

theorem roundByte_le (v : ℝ) : (roundByte v : ℕ) ≤ 255 := by
  unfold roundByte
  omega

theorem getPixelClamped_coe (img : Image) (x : Fin img.width)
    (y : Fin img.height) (c : Fin img.channels) :
    getPixelClamped img ((x : ℕ) : ℤ) ((y : ℕ) : ℤ) c =
      ((img.pixel y x c : ℕ) : ℝ) := by
  unfold getPixelClamped
  rw [dif_pos x.pos, dif_pos y.pos]
  have hy : min (max (((y : ℕ) : ℤ)) 0).toNat (img.height - 1) = (y : ℕ) := by
    have := y.isLt
    omega
  have hx : min (max (((x : ℕ) : ℤ)) 0).toNat (img.width - 1) = (x : ℕ) := by
    have := x.isLt
    omega
  simp only [hx, hy, Fin.eta]

theorem bilinearSample_natCast (img : Image) (c : Fin img.channels)
    (x : Fin img.width) (y : Fin img.height) :
    bilinearSample img c ((x : ℕ) : ℝ) ((y : ℕ) : ℝ) =
      ((img.pixel y x c : ℕ) : ℝ) := by
  unfold bilinearSample
  rw [Int.floor_natCast, Int.floor_natCast]
  have hfx : (((x : ℕ) : ℝ)) - (((x : ℕ) : ℤ) : ℝ) = 0 := by
    push_cast
    ring
  have hfy : (((y : ℕ) : ℝ)) - (((y : ℕ) : ℤ) : ℝ) = 0 := by
    push_cast
    ring
  rw [hfx, hfy, getPixelClamped_coe]
  ring

theorem warp_width {n : ℕ} (img : Image) (m : TPSModel n) (t : ℝ)
    (fp : FillPolicy) : (warp img m t fp).width = img.width :=
  rfl

theorem warp_height {n : ℕ} (img : Image) (m : TPSModel n) (t : ℝ)
    (fp : FillPolicy) : (warp img m t fp).height = img.height :=
  rfl

theorem warp_channels {n : ℕ} (img : Image) (m : TPSModel n) (t : ℝ)
    (fp : FillPolicy) : (warp img m t fp).channels = img.channels :=
  rfl

theorem warp_pixel_inBounds {n : ℕ} (img : Image) (m : TPSModel n) (t : ℝ)
    (fp : FillPolicy) (y : Fin img.height) (x : Fin img.width)
    (c : Fin img.channels)
    (h : inSourceBounds img (evaluate m ⟨x, y⟩ t).x (evaluate m ⟨x, y⟩ t).y) :
    (warp img m t fp).pixel y x c =
      roundByte (bilinearSample img c (evaluate m ⟨x, y⟩ t).x
        (evaluate m ⟨x, y⟩ t).y) := by
  unfold warp
  exact if_pos h

theorem warp_pixel_outOfBounds {n : ℕ} (img : Image) (m : TPSModel n) (t : ℝ)
    (fp : FillPolicy) (y : Fin img.height) (x : Fin img.width)
    (c : Fin img.channels)
    (h : ¬ inSourceBounds img (evaluate m ⟨x, y⟩ t).x
      (evaluate m ⟨x, y⟩ t).y) :
    (warp img m t fp).pixel y x c =
      fillValue fp img c (evaluate m ⟨x, y⟩ t).x (evaluate m ⟨x, y⟩ t).y := by
  unfold warp
  exact if_neg h

theorem coe_le_width_sub_one (w : ℕ) (x : Fin w) :
    ((x : ℕ) : ℝ) ≤ (w : ℝ) - 1 := by
  have h : ((x : ℕ) : ℝ) + 1 ≤ (w : ℝ) := by
    exact_mod_cast Nat.succ_le_of_lt x.isLt
  linarith

theorem warp_eq_of_evaluate_id {n : ℕ} (img : Image) (m : TPSModel n)
    (t : ℝ) (fp : FillPolicy) (hev : ∀ p, evaluate m p t = p) :
    warp img m t fp = img := by
  obtain ⟨w, h, ch, pix⟩ := img
  unfold warp
  congr 1
  funext y x c
  have hex : (evaluate m ⟨((x : ℕ) : ℝ), ((y : ℕ) : ℝ)⟩ t).x =
      ((x : ℕ) : ℝ) := by
    rw [hev ⟨((x : ℕ) : ℝ), ((y : ℕ) : ℝ)⟩]
  have hey : (evaluate m ⟨((x : ℕ) : ℝ), ((y : ℕ) : ℝ)⟩ t).y =
      ((y : ℕ) : ℝ) := by
    rw [hev ⟨((x : ℕ) : ℝ), ((y : ℕ) : ℝ)⟩]
  rw [hex, hey]
  have hb : inSourceBounds ⟨w, h, ch, pix⟩ ((x : ℕ) : ℝ) ((y : ℕ) : ℝ) := by
    refine ⟨by positivity, coe_le_width_sub_one w x, by positivity,
      coe_le_width_sub_one h y⟩
  rw [if_pos hb]
  rw [bilinearSample_natCast ⟨w, h, ch, pix⟩ c x y]
  exact roundByte_byte _

/-! Concrete landmark sets and images used to exercise the development on
explicit inputs. -/

/-- Source points of the end-to-end example of the spec (section 8). -/
noncomputable def examplePts : Fin 3 → Point2D :=
  ![⟨100, 100⟩, ⟨200, 100⟩, ⟨150, 200⟩]

/-- Destination points of the end-to-end example of the spec (section 8). -/
noncomputable def exampleDst : Fin 3 → Point2D :=
  ![⟨110, 110⟩, ⟨210, 120⟩, ⟨155, 205⟩]

/-- The end-to-end example landmark set
(100,100)-(110,110), (200,100)-(210,120), (150,200)-(155,205). -/
noncomputable abbrev exampleSet : LandmarkSet :=
  ⟨3, fun i => ⟨examplePts i, exampleDst i⟩⟩

/-- A simple non-collinear source triple. -/
noncomputable def basePts : Fin 3 → Point2D := ![⟨0, 0⟩, ⟨1, 0⟩, ⟨0, 1⟩]

/-- Arbitrary destination triple for a generic witness fit. -/
noncomputable def baseDst : Fin 3 → Point2D := ![⟨1, 2⟩, ⟨3, 4⟩, ⟨5, 6⟩]

/-- A generic 3-landmark set with non-collinear sources. -/
noncomputable abbrev squareSet : LandmarkSet :=
  ⟨3, fun i => ⟨basePts i, baseDst i⟩⟩

/-- A 3-landmark set whose pairs all have source equal to destination. -/
noncomputable abbrev identitySet : LandmarkSet :=
  ⟨3, fun i => ⟨basePts i, basePts i⟩⟩

/-- A landmark set with only 2 pairs. -/
noncomputable abbrev twoSet : LandmarkSet :=
  ⟨2, fun _ => ⟨⟨0, 0⟩, ⟨1, 1⟩⟩⟩

/-- Collinear source points on the diagonal x = y. -/
noncomputable def collinearPts : Fin 3 → Point2D := ![⟨0, 0⟩, ⟨1, 1⟩, ⟨2, 2⟩]

/-- A 3-landmark set with collinear sources. -/
noncomputable abbrev collinearSet : LandmarkSet :=
  ⟨3, fun i => ⟨collinearPts i, ⟨(collinearPts i).x + 1, (collinearPts i).y⟩⟩⟩

/-- The 300 x 300 3-channel zero image of the end-to-end example. -/
abbrev zeroImage : Image := ⟨300, 300, 3, fun _ _ _ => ⟨0, by omega⟩⟩

/-- A small constant test image. -/
abbrev testImage : Image := ⟨2, 2, 1, fun _ _ _ => ⟨7, by omega⟩⟩

/-- A transposition of the first two landmark indices. -/
def swapPerm : Equiv.Perm (Fin 3) := Equiv.swap 0 1

/-- A landmark-free model whose affine part sends every point to (5, 5) at
full blend; used to exhibit an out-of-bounds mapped coordinate. -/
noncomputable def farModel : TPSModel 0 :=
  ⟨Fin.elim0, Fin.elim0, Fin.elim0, ![5, 0, 0], ![5, 0, 0]⟩

/-- A tiny 2 x 2 single-channel image. -/
abbrev smallImage : Image := ⟨2, 2, 1, fun _ _ _ => ⟨9, by omega⟩⟩

theorem examplePts_design_det : (designMatrix examplePts).det ≠ 0 := by
  rw [Matrix.det_fin_three]
  simp only [designMatrix, Matrix.of_apply, examplePts, Matrix.cons_val_zero,
    Matrix.cons_val_one, Matrix.head_cons, Matrix.cons_val_two,
    Matrix.tail_cons]
  norm_num

theorem basePts_design_det : (designMatrix basePts).det ≠ 0 := by
  rw [Matrix.det_fin_three]
  simp only [designMatrix, Matrix.of_apply, basePts, Matrix.cons_val_zero,
    Matrix.cons_val_one, Matrix.head_cons, Matrix.cons_val_two,
    Matrix.tail_cons]
  norm_num

theorem swapPerm_zero : swapPerm 0 = 1 := Equiv.swap_apply_left 0 1

theorem swapPerm_one : swapPerm 1 = 0 := Equiv.swap_apply_right 0 1

theorem swapPerm_two : swapPerm 2 = 2 :=
  Equiv.swap_apply_of_ne_of_ne (by decide) (by decide)

theorem permPts_design_det :
    (designMatrix (fun i => basePts (swapPerm i))).det ≠ 0 := by
  rw [Matrix.det_fin_three]
  simp only [designMatrix, Matrix.of_apply, swapPerm_zero, swapPerm_one,
    swapPerm_two, basePts, Matrix.cons_val_zero, Matrix.cons_val_one,
    Matrix.head_cons, Matrix.cons_val_two, Matrix.tail_cons]
  norm_num

theorem srcOf_exampleSet : srcOf exampleSet = examplePts := rfl

theorem srcOf_squareSet : srcOf squareSet = basePts := rfl

theorem srcOf_identitySet : srcOf identitySet = basePts := rfl

theorem srcOf_squareSet_perm :
    srcOf (squareSet.permute swapPerm) = fun i => basePts (swapPerm i) := rfl

theorem exampleSet_tps_det : (tpsMatrix (srcOf exampleSet) 0).det ≠ 0 := by
  apply tpsMatrix_det_ne_zero_of_eq_three (rfl : exampleSet.count = 3)
  have hmat : (Matrix.of fun (i j : Fin 3) => designMatrix (srcOf exampleSet)
      (Fin.cast (rfl : exampleSet.count = 3).symm i) j) =
      designMatrix examplePts := by
    funext i j
    fin_cases i <;> fin_cases j <;> rfl
  rw [hmat]
  exact examplePts_design_det

theorem squareSet_tps_det : (tpsMatrix (srcOf squareSet) 0).det ≠ 0 := by
  apply tpsMatrix_det_ne_zero_of_eq_three (rfl : squareSet.count = 3)
  have hmat : (Matrix.of fun (i j : Fin 3) => designMatrix (srcOf squareSet)
      (Fin.cast (rfl : squareSet.count = 3).symm i) j) =
      designMatrix basePts := by
    funext i j
    fin_cases i <;> fin_cases j <;> rfl
  rw [hmat]
  exact basePts_design_det

theorem identitySet_tps_det : (tpsMatrix (srcOf identitySet) 0).det ≠ 0 := by
  apply tpsMatrix_det_ne_zero_of_eq_three (rfl : identitySet.count = 3)
  have hmat : (Matrix.of fun (i j : Fin 3) => designMatrix (srcOf identitySet)
      (Fin.cast (rfl : identitySet.count = 3).symm i) j) =
      designMatrix basePts := by
    funext i j
    fin_cases i <;> fin_cases j <;> rfl
  rw [hmat]
  exact basePts_design_det

theorem squareSet_perm_tps_det :
    (tpsMatrix (srcOf (squareSet.permute swapPerm)) 0).det ≠ 0 := by
  apply tpsMatrix_det_ne_zero_of_eq_three
    (rfl : (squareSet.permute swapPerm).count = 3)
  have hmat : (Matrix.of fun (i j : Fin 3) =>
      designMatrix (srcOf (squareSet.permute swapPerm))
        (Fin.cast (rfl : (squareSet.permute swapPerm).count = 3).symm i) j) =
      designMatrix (fun i => basePts (swapPerm i)) := by
    funext i j
    fin_cases i <;> fin_cases j <;> rfl
  rw [hmat]
  exact permPts_design_det

theorem solve_exampleSet :
    solve exampleSet 0 = Except.ok (mkModel exampleSet 0) :=
  solve_eq_ok_iff.mpr ⟨by decide, exampleSet_tps_det, rfl⟩

theorem solve_squareSet : solve squareSet 0 = Except.ok (mkModel squareSet 0) :=
  solve_eq_ok_iff.mpr ⟨by decide, squareSet_tps_det, rfl⟩

theorem solve_identitySet :
    solve identitySet 0 = Except.ok (mkModel identitySet 0) :=
  solve_eq_ok_iff.mpr ⟨by decide, identitySet_tps_det, rfl⟩

theorem solve_squareSet_perm :
    solve (squareSet.permute swapPerm) 0 =
      Except.ok (mkModel (squareSet.permute swapPerm) 0) :=
  solve_eq_ok_iff.mpr ⟨by decide, squareSet_perm_tps_det, rfl⟩

theorem farModel_evaluate (p : Point2D) : evaluate farModel p 1 = ⟨5, 5⟩ := by
  rw [evaluate_one]
  unfold fTPS farModel
  ext <;> simp

theorem collinearSet_collinear :
    ∀ i, (0 : ℝ) + 1 * (srcOf collinearSet i).x +
      (-1) * (srcOf collinearSet i).y = 0 := by
  intro i
  fin_cases i <;> norm_num [srcOf, collinearSet, collinearPts]

/-! The claims. -/

/-- Claim C1: for every model fitted with regularization 0 from a landmark
set with at least 3 pairs whose solve succeeds, evaluating the forward model
at the source point of each landmark with percent 1 yields that landmark's
destination point; in the real-arithmetic model the floating tolerance
becomes exact equality. -/
theorem solve_zero_interpolates {s : LandmarkSet} {m : TPSModel s.count}
    (h : solve s 0 = Except.ok m) (i : Fin s.count) :
    evaluate m (s.pairs i).src 1 = (s.pairs i).dst := by
  obtain ⟨h3, hdet, hm⟩ := solve_eq_ok_iff.mp h
  subst hm
  rw [evaluate_one]
  exact mkModel_interpolates s hdet i

theorem solve_zero_interpolates_witness :
    ∃ m, solve squareSet 0 = Except.ok m ∧
      evaluate m (squareSet.pairs 0).src 1 = (squareSet.pairs 0).dst :=
  ⟨mkModel squareSet 0, solve_squareSet,
    solve_zero_interpolates solve_squareSet 0⟩

/-- Claim C2: for every fitted model, point and percent (unclamped, also
outside the unit interval), evaluate returns
point + percent * (f(point) - point) with f the affine-plus-radial formula,
where U(r) = r squared times log r for positive r and U(0) = 0; and
evaluate at percent 0 is exactly the input point. -/
theorem evaluate_blend_formula :
    (∀ r : ℝ, 0 < r → U r = r ^ 2 * Real.log r) ∧ U 0 = 0 ∧
    (∀ (n : ℕ) (m : TPSModel n) (p : Point2D) (t : ℝ),
      evaluate m p t = ⟨p.x + t * ((m.affineX 0 + m.affineX 1 * p.x +
          m.affineX 2 * p.y + ∑ i, m.weightsX i *
            U (pointDist (m.controlPoints i) p)) - p.x),
        p.y + t * ((m.affineY 0 + m.affineY 1 * p.x + m.affineY 2 * p.y +
          ∑ i, m.weightsY i * U (pointDist (m.controlPoints i) p)) - p.y)⟩) ∧
    (∀ (n : ℕ) (m : TPSModel n) (p : Point2D), evaluate m p 0 = p) := by
  refine ⟨fun r hr => ?_, ?_, fun n m p t => rfl, fun n m p => evaluate_zero m p⟩
  · unfold U
    rw [if_neg (ne_of_gt hr)]
  · unfold U
    simp

theorem evaluate_blend_formula_witness : U 2 = 2 ^ 2 * Real.log 2 :=
  evaluate_blend_formula.1 2 (by norm_num)

/-- Claim C3: for every landmark set with 0, 1 or 2 pairs and every
regularization value, solve fails with InsufficientLandmarksError and no
model is produced. -/
theorem solve_insufficient_landmarks {s : LandmarkSet} (lam : ℝ)
    (h : s.count < 3) :
    solve s lam = Except.error TPSError.insufficientLandmarksError ∧
      ∀ m : TPSModel s.count, solve s lam ≠ Except.ok m := by
  have he : solve s lam = Except.error TPSError.insufficientLandmarksError := by
    unfold solve
    rw [if_pos h]
  refine ⟨he, fun m hm => ?_⟩
  rw [he] at hm
  cases hm

theorem solve_insufficient_landmarks_witness :
    solve twoSet (-1) = Except.error TPSError.insufficientLandmarksError ∧
      ∀ m : TPSModel twoSet.count, solve twoSet (-1) ≠ Except.ok m :=
  solve_insufficient_landmarks (-1) (by decide)

/-- Claim C4: a landmark set of 3 or more pairs whose source points are all
collinear (or, with zero regularization, contain a duplicate, which makes
the kernel block rank-deficient) makes solve fail with SingularSystemError
instead of returning a model. -/
theorem solve_singular_degenerate {s : LandmarkSet} (lam : ℝ)
    (h3 : 3 ≤ s.count)
    (hsing : (∃ a b c : ℝ, ¬(a = 0 ∧ b = 0 ∧ c = 0) ∧
        ∀ i, a + b * (srcOf s i).x + c * (srcOf s i).y = 0) ∨
      (lam = 0 ∧ ∃ i j, i ≠ j ∧ srcOf s i = srcOf s j)) :
    solve s lam = Except.error TPSError.singularSystemError := by
  have hdet : (tpsMatrix (srcOf s) lam).det = 0 := by
    rcases hsing with ⟨a, b, c, hnz, hcol⟩ | ⟨hl, i, j, hij, hP⟩
    · exact tpsMatrix_det_eq_zero_of_collinear _ lam a b c hnz hcol
    · rw [hl]
      exact tpsMatrix_det_eq_zero_of_dup _ i j hij hP
  unfold solve
  rw [if_neg (by omega), if_pos hdet]

theorem solve_singular_degenerate_witness :
    solve collinearSet 0 = Except.error TPSError.singularSystemError :=
  solve_singular_degenerate 0 (by decide)
    (Or.inl ⟨0, 1, -1, by norm_num, collinearSet_collinear⟩)

/-- Claim C5: every model produced by a successful solve satisfies the
natural boundary conditions: the radial weights of each output coordinate
sum to zero and are orthogonal to the x and y coordinates of the control
points; this follows from the transposed-design block of the assembled
augmented system. -/
theorem solve_boundary_conditions {s : LandmarkSet} {lam : ℝ}
    {m : TPSModel s.count} (h : solve s lam = Except.ok m) :
    (∑ i, m.weightsX i) = 0 ∧
    (∑ i, m.weightsX i * (m.controlPoints i).x) = 0 ∧
    (∑ i, m.weightsX i * (m.controlPoints i).y) = 0 ∧
    (∑ i, m.weightsY i) = 0 ∧
    (∑ i, m.weightsY i * (m.controlPoints i).x) = 0 ∧
    (∑ i, m.weightsY i * (m.controlPoints i).y) = 0 := by
  obtain ⟨h3, hdet, hm⟩ := solve_eq_ok_iff.mp h
  subst hm
  have hX := mkModel_system_x s lam hdet
  have hY := mkModel_system_y s lam hdet
  have hcp : (mkModel s lam).controlPoints = srcOf s := rfl
  refine ⟨?_, ?_, ?_, ?_, ?_, ?_⟩
  · have h2 := congrFun hX (Sum.inr 0)
    rw [tpsMatrix_mulVec_inr0] at h2
    simpa using h2
  · have h2 := congrFun hX (Sum.inr 1)
    rw [tpsMatrix_mulVec_inr1] at h2
    simp only [Sum.elim_inr, Pi.zero_apply] at h2
    rw [hcp]
    calc (∑ i, (mkModel s lam).weightsX i * (srcOf s i).x)
        = ∑ i, (srcOf s i).x * (mkModel s lam).weightsX i :=
          Finset.sum_congr rfl fun i _ => mul_comm _ _
      _ = 0 := h2
  · have h2 := congrFun hX (Sum.inr 2)
    rw [tpsMatrix_mulVec_inr2] at h2
    simp only [Sum.elim_inr, Pi.zero_apply] at h2
    rw [hcp]
    calc (∑ i, (mkModel s lam).weightsX i * (srcOf s i).y)
        = ∑ i, (srcOf s i).y * (mkModel s lam).weightsX i :=
          Finset.sum_congr rfl fun i _ => mul_comm _ _
      _ = 0 := h2
  · have h2 := congrFun hY (Sum.inr 0)
    rw [tpsMatrix_mulVec_inr0] at h2
    simpa using h2
  · have h2 := congrFun hY (Sum.inr 1)
    rw [tpsMatrix_mulVec_inr1] at h2
    simp only [Sum.elim_inr, Pi.zero_apply] at h2
    rw [hcp]
    calc (∑ i, (mkModel s lam).weightsY i * (srcOf s i).x)
        = ∑ i, (srcOf s i).x * (mkModel s lam).weightsY i :=
          Finset.sum_congr rfl fun i _ => mul_comm _ _
      _ = 0 := h2
  · have h2 := congrFun hY (Sum.inr 2)
    rw [tpsMatrix_mulVec_inr2] at h2
    simp only [Sum.elim_inr, Pi.zero_apply] at h2
    rw [hcp]
    calc (∑ i, (mkModel s lam).weightsY i * (srcOf s i).y)
        = ∑ i, (srcOf s i).y * (mkModel s lam).weightsY i :=
          Finset.sum_congr rfl fun i _ => mul_comm _ _
      _ = 0 := h2

theorem solve_boundary_conditions_witness :
    ∃ m, solve squareSet 0 = Except.ok m ∧
      (∑ i, m.weightsX i) = 0 ∧ (∑ i, m.weightsY i) = 0 :=
  ⟨mkModel squareSet 0, solve_squareSet,
    (solve_boundary_conditions solve_squareSet).1,
    (solve_boundary_conditions solve_squareSet).2.2.2.1⟩

/-- Claim C6: if every landmark pair has source equal to destination, then
for every image, every blend factor and every fill policy, warping with a
model fitted from that set returns the input image exactly, pixel for
pixel. -/
theorem warp_identity_landmarks {s : LandmarkSet} {lam : ℝ}
    {m : TPSModel s.count} (hid : ∀ i, (s.pairs i).src = (s.pairs i).dst)
    (h : solve s lam = Except.ok m) (img : Image) (t : ℝ) (fp : FillPolicy) :
    warp img m t fp = img := by
  obtain ⟨h3, hdet, hm⟩ := solve_eq_ok_iff.mp h
  subst hm
  exact warp_eq_of_evaluate_id img _ t fp
    (fun p => mkModel_identity s lam hdet hid p t)

theorem warp_identity_landmarks_witness :
    ∃ m, solve identitySet 0 = Except.ok m ∧
      warp testImage m (-2) FillPolicy.edgeClamp = testImage :=
  ⟨mkModel identitySet 0, solve_identitySet,
    warp_identity_landmarks (fun i => rfl) solve_identitySet testImage (-2)
      FillPolicy.edgeClamp⟩

/-- Claim C7: warp always returns an image of the same width, height and
channel count as its input (the sample type is BYTE throughout); in
particular the end-to-end example landmarks fit successfully and warping the
300 x 300 3-channel zero image at percent 1 yields a 300 x 300 3-channel
image. -/
theorem warp_shape_preservation :
    (∀ (n : ℕ) (img : Image) (m : TPSModel n) (t : ℝ) (fp : FillPolicy),
      (warp img m t fp).width = img.width ∧
      (warp img m t fp).height = img.height ∧
      (warp img m t fp).channels = img.channels) ∧
    (∃ m : TPSModel exampleSet.count, solve exampleSet 0 = Except.ok m ∧
      (warp zeroImage m 1 FillPolicy.default).width = 300 ∧
      (warp zeroImage m 1 FillPolicy.default).height = 300 ∧
      (warp zeroImage m 1 FillPolicy.default).channels = 3) :=
  ⟨fun n img m t fp => ⟨rfl, rfl, rfl⟩,
    mkModel exampleSet 0, solve_exampleSet, rfl, rfl, rfl⟩

/-- Claim C8: a destination pixel whose mapped source coordinate is out of
bounds is never an error: it receives the fill-policy value, in-bounds
pixels receive the rounded bilinear sample, and the warp as a whole still
returns a full image of the input shape. -/
theorem warp_out_of_bounds_filled {n : ℕ} (img : Image) (m : TPSModel n)
    (t : ℝ) (fp : FillPolicy) (y : Fin img.height) (x : Fin img.width)
    (c : Fin img.channels) :
    (¬ inSourceBounds img (evaluate m ⟨x, y⟩ t).x (evaluate m ⟨x, y⟩ t).y →
      (warp img m t fp).pixel y x c =
        fillValue fp img c (evaluate m ⟨x, y⟩ t).x (evaluate m ⟨x, y⟩ t).y) ∧
    (inSourceBounds img (evaluate m ⟨x, y⟩ t).x (evaluate m ⟨x, y⟩ t).y →
      (warp img m t fp).pixel y x c =
        roundByte (bilinearSample img c (evaluate m ⟨x, y⟩ t).x
          (evaluate m ⟨x, y⟩ t).y)) ∧
    (warp img m t fp).width = img.width ∧
    (warp img m t fp).height = img.height :=
  ⟨warp_pixel_outOfBounds img m t fp y x c,
    warp_pixel_inBounds img m t fp y x c, rfl, rfl⟩

theorem warp_out_of_bounds_filled_witness :
    (warp smallImage farModel 1
      (FillPolicy.constant ⟨3, by omega⟩)).pixel (0 : Fin 2) (0 : Fin 2)
        (0 : Fin 1) = ⟨3, by omega⟩ := by
  refine ((warp_out_of_bounds_filled smallImage farModel 1
    (FillPolicy.constant ⟨3, by omega⟩) (0 : Fin 2) (0 : Fin 2)
      (0 : Fin 1)).1 ?_).trans rfl
  rw [farModel_evaluate]
  rintro ⟨-, h2, -, -⟩
  have h2a : (5 : ℝ) ≤ ((smallImage.width : ℕ) : ℝ) - 1 := h2
  have hw : smallImage.width = 2 := rfl
  rw [hw] at h2a
  norm_num at h2a

/-- Claim C9: fitting from a landmark set and from any permutation of its
pairs yields numerically identical transforms: the evaluations agree at
every point and every blend factor; only the pairing of stored weights with
landmarks changes. -/
theorem solve_permutation_invariant {s : LandmarkSet}
    (e : Equiv.Perm (Fin s.count)) {lam : ℝ} {m : TPSModel s.count}
    {m2 : TPSModel (s.permute e).count}
    (h : solve s lam = Except.ok m)
    (h2 : solve (s.permute e) lam = Except.ok m2)
    (p : Point2D) (t : ℝ) : evaluate m2 p t = evaluate m p t := by
  obtain ⟨h3, hdet, hm⟩ := solve_eq_ok_iff.mp h
  obtain ⟨h3b, hdet2, hm2⟩ := solve_eq_ok_iff.mp h2
  subst hm
  subst hm2
  exact mkModel_permute_evaluate s e lam hdet hdet2 p t

set_option maxHeartbeats 1000000 in
theorem solve_permutation_invariant_witness :
    ∃ m m2, solve squareSet 0 = Except.ok m ∧
      solve (squareSet.permute swapPerm) 0 = Except.ok m2 ∧
      evaluate m2 ⟨7, 11⟩ 2 = evaluate m ⟨7, 11⟩ 2 :=
  by
  refine ⟨mkModel squareSet 0, mkModel (squareSet.permute swapPerm) 0,
    solve_squareSet, solve_squareSet_perm, ?_⟩
  exact @solve_permutation_invariant squareSet swapPerm 0
    (mkModel squareSet 0) (mkModel (squareSet.permute swapPerm) 0)
    solve_squareSet solve_squareSet_perm ⟨7, 11⟩ 2

/-- Claim C10: the BYTE sample type of the non-MFC build (an unsigned char,
modelled as an exact integer in 0..255) bounds every per-channel sample a
warp reads or writes; rounding maps every interpolated real value back into
0..255 and is the identity on exact byte values. -/
theorem byte_sample_range :
    (∀ b : BYTE, (b : ℕ) ≤ 255) ∧
    (∀ v : ℝ, (roundByte v : ℕ) ≤ 255) ∧
    (∀ b : BYTE, roundByte ((b : ℕ) : ℝ) = b) ∧
    (∀ (n : ℕ) (img : Image) (m : TPSModel n) (t : ℝ) (fp : FillPolicy)
      (y : Fin img.height) (x : Fin img.width) (c : Fin img.channels),
      (((warp img m t fp).pixel y x c : Fin 256) : ℕ) ≤ 255) :=
  ⟨fun b => by omega, roundByte_le, roundByte_byte,
    fun n img m t fp y x c => by
      have := ((warp img m t fp).pixel y x c).isLt
      omega⟩

end WarpTPS
